import Mathlib

/-! Formalization of the rust-lci tokenizer (src/src/tokenizer.rs).

The Rust source is embedded shallowly:
* the character cursor (a cloneable peekable iterator) is the list of
  characters not yet consumed; a speculative fork of the cursor is just a
  second use of the same list, so fork independence is by construction;
* the Rust type i64 is modelled as Int (range-checked exactly where the
  source range-checks, namely in literal parsing), and f64 as Rat with
  exact values (IEEE rounding is idealized away; no claim here depends on
  rounding);
* the standard-library str parse calls for i64 and f64 are modelled by
  executable parsers over the corresponding numeric grammars (sign plus
  digits for i64; sign, mantissa with optional fraction, optional exponent
  for f64; the inf and nan spellings are omitted as no claim touches them);
* the loops of the source are expressed by structural recursion, with an
  explicit fuel argument for the two loops whose termination measure is
  the length of the remaining input (the block-comment scan and the
  per-token dispatch, which re-invoke the scanner after comments), plus
  theorems showing that fuel one larger than the input length never runs
  out, so the fuel-free wrappers compute the functions of the source.
-/

namespace LCI

/-- Lexical error taxonomy, from enum Error of the source. -/
inductive Error where
  | InvalidIdent (c : Char)
  | InvalidNumber (s : String)
  | UnclosedComment
  | UnclosedString
  | UnexpectedEOF
  | UnknownEscape (c : Char)
  | UnknownToken
  deriving DecidableEq

/-- Dynamic scalar values, from enum Value of the source. Numbr carries an
i64 (modelled as Int), Numbar an f64 (modelled as Rat). -/
inductive Value where
  | Noob
  | Yarn (s : String)
  | Numbr (n : Int)
  | Numbar (x : Rat)
  | Troof (b : Bool)
  deriving DecidableEq

/-- Token kinds, from enum Token of the source. -/
inductive Token where
  | Ident (name : String)
  | Value (v : Value)
  | Separator
  | IHasA
  | Itz
  | R
  | SumOf
  | DiffOf
  | ProduktOf
  | QuoshuntOf
  | ModOf
  | BiggrOf
  | SmallrOf
  | BothOf
  | EitherOf
  | WonOf
  | Not
  | AllOf
  | AnyOf
  | BothSaem
  | Diffrint
  | An
  | Mkay
  | ORly
  | YaRly
  | Mebbe
  | NoWai
  | Oic
  | Visible
  | Exclamation
  | Gimmeh
  deriving DecidableEq

/-- Smallest i64 value. -/
def i64Min : Int := -(2 ^ 63)

/-- Largest i64 value. -/
def i64Max : Int := 2 ^ 63 - 1

/-- Numeric value of a list of decimal digit characters. -/
def digitsVal (l : List Char) : Nat :=
  l.foldl (fun a c => a * 10 + (c.toNat - 48)) 0

/-- Digits part of the i64 grammar: one or more decimal digits whose signed
value fits in i64 (str parse for i64 rejects overflow). -/
def parseI64Digits (sign : Int) (ds : List Char) : Option Int :=
  if ds = [] then none
  else if ds.all Char.isDigit then
    let n : Int := sign * (digitsVal ds : Int)
    if i64Min ≤ n ∧ n ≤ i64Max then some n else none
  else none

/-- Model of the standard-library str parse for i64: optional sign followed
by one or more decimal digits, value within the i64 range. -/
def parseI64 (str : String) : Option Int :=
  match str.toList with
  | [] => none
  | c :: rest =>
    if c = '+' then parseI64Digits 1 rest
    else if c = '-' then parseI64Digits (-1) rest
    else parseI64Digits 1 (c :: rest)

/-- Ten to an integer power, as a rational. -/
def pow10 (e : Int) : Rat :=
  if 0 ≤ e then (10 : Rat) ^ e.toNat else ((10 : Rat) ^ (-e).toNat)⁻¹

/-- Exponent digits of the f64 grammar: one or more decimal digits ending
the literal. -/
def expDigits (m : Rat) (sign : Int) (ds : List Char) : Option Rat :=
  if ds ≠ [] ∧ ds.all Char.isDigit then
    some (m * pow10 (sign * (digitsVal ds : Nat)))
  else none

/-- Optional exponent suffix of the f64 grammar. -/
def parseExp (m : Rat) (l : List Char) : Option Rat :=
  match l with
  | [] => some m
  | c :: rest =>
    if c = 'e' ∨ c = 'E' then
      match rest with
      | '+' :: ds => expDigits m 1 ds
      | '-' :: ds => expDigits m (-1) ds
      | ds => expDigits m 1 ds
    else none

/-- Mantissa of the f64 grammar: digits, optionally a point and more digits,
with at least one digit present somewhere. -/
def parseF64Body (sign : Rat) (l : List Char) : Option Rat :=
  let ip := l.takeWhile Char.isDigit
  let r1 := l.dropWhile Char.isDigit
  match r1 with
  | '.' :: r2 =>
    let fp := r2.takeWhile Char.isDigit
    let r3 := r2.dropWhile Char.isDigit
    if ip = [] ∧ fp = [] then none
    else parseExp (sign * ((digitsVal ip : Rat) + (digitsVal fp : Rat) / (10 : Rat) ^ fp.length)) r3
  | _ =>
    if ip = [] then none
    else parseExp (sign * (digitsVal ip : Rat)) r1

/-- Model of the standard-library str parse for f64 (finite decimal forms;
exact rational value instead of the nearest double). -/
def parseF64 (str : String) : Option Rat :=
  match str.toList with
  | [] => none
  | c :: rest =>
    if c = '+' then parseF64Body 1 rest
    else if c = '-' then parseF64Body (-1) rest
    else parseF64Body 1 (c :: rest)

/-- Truncation of a rational toward zero, the rounding used by a Rust float
to integer cast. -/
def ratTrunc (x : Rat) : Int :=
  if 0 ≤ x then x.floor else -(-x).floor

/-- The Rust cast of an f64 to i64: truncate toward zero, saturating at the
i64 bounds. -/
def f64AsI64 (x : Rat) : Int :=
  let t := ratTrunc x
  if t < i64Min then i64Min else if i64Max < t then i64Max else t

/-- Value cast_numbr of the source: to-integer coercion. -/
def Value.cast_numbr : Value → Option Int
  | .Noob => none
  | .Yarn s => some ((parseI64 s).getD 0)
  | .Numbr n => some n
  | .Numbar x => some (f64AsI64 x)
  | .Troof b => some (if b then 1 else 0)

/-- Value cast_numbar of the source: to-float coercion. -/
def Value.cast_numbar : Value → Option Rat
  | .Noob => none
  | .Yarn s => some ((parseF64 s).getD 0)
  | .Numbr n => some (n : Rat)
  | .Numbar x => some x
  | .Troof b => some (if b then 1 else 0)

/-- Value cast_troof of the source: to-boolean coercion. The source returns
the equality test itself for the numeric variants and is_empty for Yarn. -/
def Value.cast_troof : Value → Bool
  | .Noob => false
  | .Yarn s => s.isEmpty
  | .Numbr n => n == 0
  | .Numbar x => x == 0
  | .Troof b => b

/-- fn is_space of the source: horizontal whitespace. -/
def is_space (c : Char) : Bool :=
  c == ' ' || c == '\t'

/-- Tokenizer trim of the source: consume leading horizontal whitespace. -/
def trim (s : List Char) : List Char :=
  s.dropWhile is_space

/-- Loop body of Tokenizer word of the source: accumulate characters until
whitespace (which is then trimmed), a newline, a comma, or end of input.
Newline and comma are not consumed. -/
def wordAux (acc : List Char) : List Char → String × List Char
  | [] => (⟨acc.reverse⟩, [])
  | c :: rest =>
    if is_space c then (⟨acc.reverse⟩, trim (c :: rest))
    else if c = '\n' ∨ c = ',' then (⟨acc.reverse⟩, c :: rest)
    else wordAux (c :: acc) rest

/-- Tokenizer word of the source. -/
def word (s : List Char) : String × List Char :=
  wordAux [] s

/-- The escape table of the string-literal scanner: the five two-character
escapes of the source, anything else is unknown. -/
def escape (c : Char) : Option Char :=
  if c = ')' then some '\n'
  else if c = '>' then some '\t'
  else if c = 'o' then some (Char.ofNat 7)
  else if c = '"' then some '"'
  else if c = ':' then some ':'
  else none

/-- String-literal loop of Tokenizer next of the source, entered after the
opening quote: a colon introduces a two-character escape (end of input right
after the colon is UnclosedString, an unknown escape character is
UnknownEscape), a quote ends the literal, end of input ends the loop and the
scanned text is returned as the literal. -/
def scanString (acc : List Char) : List Char → Except Error (String × List Char)
  | [] => .ok (⟨acc.reverse⟩, [])
  | c :: rest =>
    if c = ':' then
      match rest with
      | [] => .error .UnclosedString
      | e :: rest2 =>
        match escape e with
        | some d => scanString (d :: acc) rest2
        | none => .error (.UnknownEscape e)
    else if c = '"' then .ok (⟨acc.reverse⟩, rest)
    else scanString (c :: acc) rest

/-- Line-comment loop of the BTW branch of the source: discard characters up
to and including the next newline, or to end of input. -/
def btwSkip : List Char → List Char
  | [] => []
  | c :: rest => if c = '\n' then rest else btwSkip rest

/-- Block-comment loop of the OBTW branch of the source, with fuel. Each
step peeks (trimming horizontal whitespace): end of input is
UnclosedComment; on a T the next word is read, TLDR ends the comment, and on
a mismatch one extra character is consumed; any other character is
consumed. -/
def obtwScanF : Nat → List Char → Option (Except Error (List Char))
  | 0, _ => none
  | fuel + 1, s =>
    match trim s with
    | [] => some (.error .UnclosedComment)
    | c :: rest =>
      if c = 'T' then
        if (word (c :: rest)).1 = "TLDR" then some (.ok (word (c :: rest)).2)
        else obtwScanF fuel ((word (c :: rest)).2.drop 1)
      else obtwScanF fuel rest

/-- Block-comment loop of the source; the fuel is sufficient by
obtwScanF_isSome. -/
def obtwScan (s : List Char) : Except Error (List Char) :=
  (obtwScanF (s.length + 1) s).getD (.error .UnclosedComment)

/-- Identifier characters of the generic fallback of the source:
alphanumeric ASCII or underscore. -/
def isIdentChar (c : Char) : Bool :=
  ('a' ≤ c && c ≤ 'z') || ('A' ≤ c && c ≤ 'Z') || ('0' ≤ c && c ≤ '9') || c == '_'

/-- The keyword-to-token table of the compound OF forms of the source. The
final else arm is the unreachable default (the caller guards the word to be
one of the twelve starters). -/
def opOf (w : String) : Token :=
  if w = "SUM" then .SumOf
  else if w = "DIFF" then .DiffOf
  else if w = "PRODUKT" then .ProduktOf
  else if w = "QUOSHUNT" then .QuoshuntOf
  else if w = "MOD" then .ModOf
  else if w = "BIGGR" then .BiggrOf
  else if w = "SMALLR" then .SmallrOf
  else if w = "BOTH" then .BothOf
  else if w = "EITHER" then .EitherOf
  else if w = "WON" then .WonOf
  else if w = "ALL" then .AllOf
  else .AnyOf

/-- Generic classification at the end of Tokenizer next of the source,
dispatching on the first peeked character: identifier (every character must
be an identifier character, the first violation is InvalidIdent), number
(i64 first, then f64, else InvalidNumber), otherwise UnknownToken. -/
def fallback (c : Char) (w : String) (s : List Char) : Except Error (Option Token × List Char) :=
  if ('a' ≤ c ∧ c ≤ 'z') ∨ ('A' ≤ c ∧ c ≤ 'Z') ∨ c = '_' then
    match w.toList.find? (fun ch => !isIdentChar ch) with
    | some bad => .error (.InvalidIdent bad)
    | none => .ok (some (.Ident w), s)
  else if '0' ≤ c ∧ c ≤ '9' then
    match parseI64 w with
    | some n => .ok (some (.Value (.Numbr n)), s)
    | none =>
      match parseF64 w with
      | some x => .ok (some (.Value (.Numbar x)), s)
      | none => .error (.InvalidNumber w)
  else .error .UnknownToken

/-- Keyword dispatch of Tokenizer next of the source on the consumed word w
(every branch except the two comment forms, which recurse and live in
nextF). c is the first peeked character, s the cursor after the word. The
speculative forks read further words from s and commit their cursor only on
a full match; otherwise the fallback runs on the untouched s. -/
def classify (c : Char) (w : String) (s : List Char) : Except Error (Option Token × List Char) :=
  match w with
  | "I" =>
    if (word s).1 = "HAS" then
      if (word (word s).2).1 = "A" then .ok (some .IHasA, (word (word s).2).2)
      else fallback c w s
    else fallback c w s
  | "ITZ" => .ok (some .Itz, s)
  | "R" => .ok (some .R, s)
  | "SUM" | "DIFF" | "PRODUKT" | "QUOSHUNT" | "MOD" | "BIGGR" | "SMALLR"
  | "BOTH" | "EITHER" | "WON" | "ALL" | "ANY" =>
    if (word s).1 = "OF" then .ok (some (opOf w), (word s).2)
    else if (word s).1 = "SAEM" ∧ w = "BOTH" then .ok (some .BothSaem, (word s).2)
    else fallback c w s
  | "NOT" => .ok (some .Not, s)
  | "DIFFRINT" => .ok (some .Diffrint, s)
  | "AN" => .ok (some .An, s)
  | "MKAY" => .ok (some .Mkay, s)
  | "O" => if (word s).1 = "RLY?" then .ok (some .ORly, (word s).2) else fallback c w s
  | "YA" => if (word s).1 = "RLY" then .ok (some .YaRly, (word s).2) else fallback c w s
  | "MEBBE" => .ok (some .Mebbe, s)
  | "NO" => if (word s).1 = "WAI" then .ok (some .NoWai, (word s).2) else fallback c w s
  | "OIC" => .ok (some .Oic, s)
  | "VISIBLE" => .ok (some .Visible, s)
  | "!" => .ok (some .Exclamation, s)
  | "GIMMEH" => .ok (some .Gimmeh, s)
  | _ => fallback c w s

/-- Tokenizer next of the source, with fuel for the recursive re-invocation
after a comment. Returns none at end of input, a token, or an error. -/
def nextF : Nat → List Char → Option (Except Error (Option Token × List Char))
  | 0, _ => none
  | fuel + 1, s =>
    match trim s with
    | [] => some (.ok (none, []))
    | c :: rest =>
      if c = '"' then
        match scanString [] rest with
        | .error e => some (.error e)
        | .ok (str, s2) => some (.ok (some (.Value (.Yarn str)), s2))
      else if c = '\n' ∨ c = ',' then some (.ok (some .Separator, rest))
      else if (word (c :: rest)).1 = "BTW" then nextF fuel (btwSkip (word (c :: rest)).2)
      else if (word (c :: rest)).1 = "OBTW" then
        match obtwScan (word (c :: rest)).2 with
        | .error e => some (.error e)
        | .ok s2 => nextF fuel s2
      else some (classify c (word (c :: rest)).1 (word (c :: rest)).2)

/-- Tokenizer next of the source; the fuel is sufficient by nextF_isSome. -/
def next (s : List Char) : Except Error (Option Token × List Char) :=
  (nextF (s.length + 1) s).getD (.ok (none, []))

/-- The driver loop of tokenize of the source, with fuel: pull tokens until
end of input, propagating the first error and discarding partial output. -/
def runF : Nat → List Char → Option (Except Error (List Token))
  | 0, _ => none
  | fuel + 1, s =>
    match next s with
    | .error e => some (.error e)
    | .ok (none, _) => some (.ok [])
    | .ok (some tok, s2) =>
      match runF fuel s2 with
      | none => none
      | some (.error e) => some (.error e)
      | some (.ok ts) => some (.ok (tok :: ts))

/-- The driver loop of the source; the fuel is sufficient by runF_isSome. -/
def run (s : List Char) : Except Error (List Token) :=
  (runF (s.length + 1) s).getD (.ok [])

/-- fn tokenize of the source. -/
def tokenize (input : String) : Except Error (List Token) :=
  run input.toList

/-! Length bounds for the scanning primitives; these justify the fuel
sufficiency theorems below. -/

theorem trim_cons_of_space {c : Char} (h : is_space c = true) (rest : List Char) :
    trim (c :: rest) = trim rest := by
  simp [trim, List.dropWhile_cons, h]

theorem trim_cons_of_not_space {c : Char} (h : is_space c = false) (rest : List Char) :
    trim (c :: rest) = c :: rest := by
  simp [trim, List.dropWhile_cons, h]

theorem trim_length_le (s : List Char) : (trim s).length ≤ s.length := by
  induction s with
  | nil => simp [trim]
  | cons c rest ih =>
    by_cases h : is_space c = true
    · rw [trim_cons_of_space h]
      exact le_trans ih (Nat.le_succ _)
    · rw [trim_cons_of_not_space (by simpa using h)]

theorem trim_head_not_space {s rest : List Char} {c : Char} (h : trim s = c :: rest) :
    is_space c = false := by
  induction s with
  | nil => simp [trim] at h
  | cons a t ih =>
    by_cases ha : is_space a = true
    · rw [trim_cons_of_space ha] at h
      exact ih h
    · rw [trim_cons_of_not_space (by simpa using ha)] at h
      cases h
      simpa using ha

theorem wordAux_length_le : ∀ (s acc : List Char), ((wordAux acc s).2).length ≤ s.length := by
  intro s
  induction s with
  | nil => intro acc; simp [wordAux]
  | cons c rest ih =>
    intro acc
    by_cases hsp : is_space c = true
    · simp only [wordAux, hsp, if_true]
      exact trim_length_le (c :: rest)
    · by_cases hsep : c = '\n' ∨ c = ','
      · simp [wordAux, hsp, hsep]
      · simp only [wordAux, hsp, hsep, if_false, Bool.false_eq_true]
        exact le_trans (ih (c :: acc)) (Nat.le_succ _)

theorem word_length_le (s : List Char) : ((word s).2).length ≤ s.length :=
  wordAux_length_le s []

theorem word_length_lt {c : Char} (rest : List Char) (hsp : is_space c = false)
    (hsep : ¬(c = '\n' ∨ c = ',')) :
    ((word (c :: rest)).2).length < (c :: rest).length := by
  have : word (c :: rest) = wordAux [c] rest := by
    simp [word, wordAux, hsp, hsep]
  rw [this]
  exact Nat.lt_succ_of_le (wordAux_length_le rest [c])

theorem scanString_length_le_aux :
    ∀ (n : Nat) (s : List Char), s.length ≤ n →
      ∀ (acc : List Char) {str : String} {s2 : List Char},
        scanString acc s = .ok (str, s2) → s2.length ≤ s.length := by
  intro n
  induction n with
  | zero =>
    intro s hs acc str s2 h
    have hs0 : s = [] := List.length_eq_zero.mp (Nat.le_zero.mp hs)
    subst hs0
    simp only [scanString, Except.ok.injEq, Prod.mk.injEq] at h
    rw [← h.2]
  | succ n ih =>
    intro s hs acc str s2 h
    match s with
    | [] =>
      simp only [scanString, Except.ok.injEq, Prod.mk.injEq] at h
      rw [← h.2]
    | c :: rest =>
      by_cases hc : c = ':'
      · subst hc
        match rest with
        | [] => simp [scanString] at h
        | e :: rest2 =>
          simp only [scanString, if_pos rfl] at h
          cases hesc : escape e with
          | none => rw [hesc] at h; simp at h
          | some d =>
            rw [hesc] at h
            have hlen : rest2.length ≤ n := by
              simp only [List.length_cons] at hs
              omega
            have := ih rest2 hlen (d :: acc) h
            simp only [List.length_cons]
            omega
      · by_cases hq : c = '"'
        · subst hq
          rw [scanString.eq_def] at h
          simp only [if_neg hc, eq_self_iff_true, if_true, Except.ok.injEq,
            Prod.mk.injEq] at h
          rw [← h.2]
          simp
        · rw [scanString.eq_def] at h
          simp only [if_neg hc, if_neg hq] at h
          have hlen : rest.length ≤ n := by
            simp only [List.length_cons] at hs
            omega
          have := ih rest hlen (c :: acc) h
          simp only [List.length_cons]
          omega

theorem scanString_length_le {s acc : List Char} {str : String} {s2 : List Char}
    (h : scanString acc s = .ok (str, s2)) : s2.length ≤ s.length :=
  scanString_length_le_aux s.length s le_rfl acc h

theorem btwSkip_length_le : ∀ s : List Char, (btwSkip s).length ≤ s.length := by
  intro s
  induction s with
  | nil => simp [btwSkip]
  | cons c rest ih =>
    by_cases h : c = '\n'
    · simp [btwSkip, h]
    · simp only [btwSkip, h, if_false]
      exact le_trans ih (Nat.le_succ _)

/-! Facts about the block-comment scan: fuel sufficiency, fuel irrelevance,
result bounds, and the only error it can produce. -/

theorem word_drop_length (c : Char) (rest : List Char) (hsp : is_space c = false)
    (hsep : ¬(c = '\n' ∨ c = ',')) :
    (((word (c :: rest)).2).drop 1).length ≤ rest.length := by
  have h1 := word_length_lt rest hsp hsep
  simp only [List.length_cons] at h1
  have h2 : (((word (c :: rest)).2).drop 1).length ≤ ((word (c :: rest)).2).length :=
    le_trans (by rw [List.length_drop]; omega) le_rfl
  omega

theorem obtwScanF_isSome :
    ∀ (fuel : Nat) (s : List Char), s.length < fuel → (obtwScanF fuel s).isSome = true := by
  intro fuel
  induction fuel with
  | zero => intro s hs; omega
  | succ fuel ih =>
    intro s hs
    rw [obtwScanF]
    cases htr : trim s with
    | nil => rfl
    | cons c rest =>
      have hlen : rest.length < s.length := by
        have := trim_length_le s
        rw [htr] at this
        simp only [List.length_cons] at this
        omega
      have hsp : is_space c = false := trim_head_not_space htr
      by_cases hT : c = 'T'
      · subst hT
        by_cases hw : (word ('T' :: rest)).1 = "TLDR"
        · simp [hw]
        · simp only [if_pos rfl, hw, if_false]
          apply ih
          have := word_drop_length 'T' rest hsp (by decide)
          omega
      · simp only [hT, if_false]
        apply ih
        omega

theorem obtwScanF_irrel :
    ∀ (f g : Nat) (s : List Char), s.length < f → s.length < g →
      obtwScanF f s = obtwScanF g s := by
  intro f
  induction f with
  | zero => intro g s hf; omega
  | succ f ih =>
    intro g s hf hg
    cases g with
    | zero => omega
    | succ g =>
      rw [obtwScanF, obtwScanF]
      cases htr : trim s with
      | nil => rfl
      | cons c rest =>
        have hlen : rest.length < s.length := by
          have := trim_length_le s
          rw [htr] at this
          simp only [List.length_cons] at this
          omega
        have hsp : is_space c = false := trim_head_not_space htr
        by_cases hT : c = 'T'
        · subst hT
          by_cases hw : (word ('T' :: rest)).1 = "TLDR"
          · simp [hw]
          · simp only [if_pos rfl, hw, if_false]
            have := word_drop_length 'T' rest hsp (by decide)
            exact ih g _ (by omega) (by omega)
        · simp only [hT, if_false]
          exact ih g rest (by omega) (by omega)

theorem obtwScanF_ok_length :
    ∀ (f : Nat) (s s2 : List Char), obtwScanF f s = some (.ok s2) → s2.length ≤ s.length := by
  intro f
  induction f with
  | zero => intro s s2 h; simp [obtwScanF] at h
  | succ f ih =>
    intro s s2 h
    rw [obtwScanF] at h
    cases htr : trim s with
    | nil => rw [htr] at h; simp at h
    | cons c rest =>
      rw [htr] at h
      have hlen : rest.length < s.length := by
        have := trim_length_le s
        rw [htr] at this
        simp only [List.length_cons] at this
        omega
      have hsp : is_space c = false := trim_head_not_space htr
      by_cases hT : c = 'T'
      · subst hT
        by_cases hw : (word ('T' :: rest)).1 = "TLDR"
        · simp only [if_pos rfl, hw, if_true, Option.some.injEq, Except.ok.injEq] at h
          have h1 := word_length_le ('T' :: rest)
          rw [h] at h1
          simp only [List.length_cons] at h1
          omega
        · simp only [if_pos rfl, hw, if_false] at h
          have h1 := ih _ _ h
          have := word_drop_length 'T' rest hsp (by decide)
          omega
      · simp only [hT, if_false] at h
        have h1 := ih _ _ h
        omega

theorem obtwScanF_error :
    ∀ (f : Nat) (s : List Char) (e : Error),
      obtwScanF f s = some (.error e) → e = .UnclosedComment := by
  intro f
  induction f with
  | zero => intro s e h; simp [obtwScanF] at h
  | succ f ih =>
    intro s e h
    rw [obtwScanF] at h
    cases htr : trim s with
    | nil =>
      rw [htr] at h
      simp only [Option.some.injEq, Except.error.injEq] at h
      exact h.symm
    | cons c rest =>
      rw [htr] at h
      by_cases hT : c = 'T'
      · subst hT
        by_cases hw : (word ('T' :: rest)).1 = "TLDR"
        · simp [hw] at h
        · simp only [if_pos rfl, hw, if_false] at h
          exact ih _ _ h
      · simp only [hT, if_false] at h
        exact ih _ _ h

theorem obtwScan_eq_obtwScanF (s : List Char) :
    obtwScanF (s.length + 1) s = some (obtwScan s) := by
  have h := obtwScanF_isSome (s.length + 1) s (Nat.lt_succ_self _)
  cases hv : obtwScanF (s.length + 1) s with
  | none => rw [hv] at h; simp at h
  | some r => simp [obtwScan, hv]

theorem obtwScan_ok_length {s s2 : List Char} (h : obtwScan s = .ok s2) :
    s2.length ≤ s.length := by
  have he := obtwScan_eq_obtwScanF s
  rw [h] at he
  exact obtwScanF_ok_length _ _ _ he

theorem obtwScan_error {s : List Char} {e : Error} (h : obtwScan s = .error e) :
    e = .UnclosedComment := by
  have he := obtwScan_eq_obtwScanF s
  rw [h] at he
  exact obtwScanF_error _ _ _ he

/-! Small-step equations for the string-literal scanner. -/

theorem scanString_nil (acc : List Char) :
    scanString acc [] = .ok (⟨acc.reverse⟩, []) := rfl

theorem scanString_colon_eof (acc : List Char) :
    scanString acc [':'] = .error .UnclosedString := rfl

theorem scanString_escape {e d : Char} (hesc : escape e = some d)
    (acc rest : List Char) :
    scanString acc (':' :: e :: rest) = scanString (d :: acc) rest := by
  rw [scanString.eq_def]
  simp [hesc]

theorem scanString_bad_escape {e : Char} (hesc : escape e = none)
    (acc rest : List Char) :
    scanString acc (':' :: e :: rest) = .error (.UnknownEscape e) := by
  rw [scanString.eq_def]
  simp [hesc]

theorem scanString_quote (acc rest : List Char) :
    scanString acc ('"' :: rest) = .ok (⟨acc.reverse⟩, rest) := by
  rw [scanString.eq_def]
  simp

theorem scanString_other {c : Char} (hc : c ≠ ':') (hq : c ≠ '"')
    (acc rest : List Char) :
    scanString acc (c :: rest) = scanString (c :: acc) rest := by
  rw [scanString.eq_def]
  simp [hc, hq]

/-! Facts about the keyword dispatch and the generic fallback. -/

theorem fallback_ok_state {c : Char} {w : String} {s : List Char} {t : Option Token}
    {s2 : List Char} (h : fallback c w s = .ok (t, s2)) : s2 = s := by
  unfold fallback at h
  split_ifs at h
  · cases hf : w.toList.find? (fun ch => !isIdentChar ch) with
    | some bad => rw [hf] at h; simp at h
    | none =>
      rw [hf] at h
      simp only [Except.ok.injEq, Prod.mk.injEq] at h
      exact h.2.symm
  · cases hi : parseI64 w with
    | some n =>
      rw [hi] at h
      simp only [Except.ok.injEq, Prod.mk.injEq] at h
      exact h.2.symm
    | none =>
      rw [hi] at h
      cases hx : parseF64 w with
      | some x =>
        rw [hx] at h
        simp only [Except.ok.injEq, Prod.mk.injEq] at h
        exact h.2.symm
      | none => rw [hx] at h; simp at h

theorem fallback_error_kinds {c : Char} {w : String} {s : List Char} {e : Error}
    (h : fallback c w s = .error e) :
    (∃ ch, e = .InvalidIdent ch) ∨ e = .InvalidNumber w ∨ e = .UnknownToken := by
  unfold fallback at h
  split_ifs at h
  · cases hf : w.toList.find? (fun ch => !isIdentChar ch) with
    | some bad =>
      rw [hf] at h
      simp only [Except.error.injEq] at h
      exact Or.inl ⟨bad, h.symm⟩
    | none => rw [hf] at h; simp at h
  · cases hi : parseI64 w with
    | some n => rw [hi] at h; simp at h
    | none =>
      rw [hi] at h
      cases hx : parseF64 w with
      | some x => rw [hx] at h; simp at h
      | none =>
        rw [hx] at h
        simp only [Except.error.injEq] at h
        exact Or.inr (Or.inl h.symm)
  · simp only [Except.error.injEq] at h
    exact Or.inr (Or.inr h.symm)

theorem fallback_not_ueof (c : Char) (w : String) (s : List Char) :
    fallback c w s ≠ .error .UnexpectedEOF := by
  intro h
  rcases fallback_error_kinds h with ⟨ch, h2⟩ | h2 | h2 <;> simp at h2

theorem classify_ok_length {c : Char} {w : String} {s : List Char} {t : Option Token}
    {s2 : List Char} (h : classify c w s = .ok (t, s2)) : s2.length ≤ s.length := by
  have hle1 : ((word s).2).length ≤ s.length := word_length_le s
  have hle2 : ((word (word s).2).2).length ≤ s.length :=
    le_trans (word_length_le _) hle1
  rw [classify.eq_def] at h
  split at h <;>
    first
      | exact le_of_eq (congrArg List.length (fallback_ok_state h))
      | (simp only [Except.ok.injEq, Prod.mk.injEq] at h
         obtain ⟨-, rfl⟩ := h
         exact le_rfl)
      | (split_ifs at h <;>
          first
            | exact le_of_eq (congrArg List.length (fallback_ok_state h))
            | (simp only [Except.ok.injEq, Prod.mk.injEq] at h
               obtain ⟨-, rfl⟩ := h
               first
                 | exact le_rfl
                 | exact hle1
                 | exact hle2))

theorem classify_error {c : Char} {w : String} {s : List Char} {e : Error}
    (h : classify c w s = .error e) : fallback c w s = .error e := by
  rw [classify.eq_def] at h
  split at h
  all_goals repeat' split at h
  all_goals first | exact h | simp at h

/-! The string-literal scanner can fail only with UnclosedString or
UnknownEscape. -/

theorem scanString_error_kinds_aux :
    ∀ (n : Nat) (s : List Char), s.length ≤ n →
      ∀ (acc : List Char) {e : Error}, scanString acc s = .error e →
        e = .UnclosedString ∨ ∃ c, e = .UnknownEscape c := by
  intro n
  induction n with
  | zero =>
    intro s hs acc e h
    have hs0 : s = [] := List.length_eq_zero.mp (Nat.le_zero.mp hs)
    subst hs0
    rw [scanString_nil] at h
    simp at h
  | succ n ih =>
    intro s hs acc e h
    match s with
    | [] => rw [scanString_nil] at h; simp at h
    | c :: rest =>
      by_cases hc : c = ':'
      · subst hc
        match rest with
        | [] =>
          rw [scanString_colon_eof] at h
          simp only [Except.error.injEq] at h
          exact Or.inl h.symm
        | e2 :: rest2 =>
          cases hesc : escape e2 with
          | none =>
            rw [scanString_bad_escape hesc] at h
            simp only [Except.error.injEq] at h
            exact Or.inr ⟨e2, h.symm⟩
          | some d =>
            rw [scanString_escape hesc] at h
            have hlen : rest2.length ≤ n := by
              simp only [List.length_cons] at hs
              omega
            exact ih rest2 hlen (d :: acc) h
      · by_cases hq : c = '"'
        · subst hq
          rw [scanString_quote] at h
          simp at h
        · rw [scanString_other hc hq] at h
          have hlen : rest.length ≤ n := by
            simp only [List.length_cons] at hs
            omega
          exact ih rest hlen (c :: acc) h

theorem scanString_error_kinds {s acc : List Char} {e : Error}
    (h : scanString acc s = .error e) :
    e = .UnclosedString ∨ ∃ c, e = .UnknownEscape c :=
  scanString_error_kinds_aux s.length s le_rfl acc h

/-! Facts about the per-token scanner nextF and its wrapper next: the fuel
suffices, a produced token consumes input, and UnexpectedEOF is never
produced. -/

theorem nextF_isSome :
    ∀ (fuel : Nat) (s : List Char), s.length < fuel → (nextF fuel s).isSome = true := by
  intro fuel
  induction fuel with
  | zero => intro s hs; omega
  | succ fuel ih =>
    intro s hs
    rw [nextF]
    cases htr : trim s with
    | nil => rfl
    | cons c rest =>
      have htl : rest.length + 1 ≤ s.length := by
        have := trim_length_le s
        rw [htr] at this
        simpa using this
      have hsp : is_space c = false := trim_head_not_space htr
      dsimp only
      by_cases hq : c = '"'
      · subst hq
        rw [if_pos rfl]
        cases hsc : scanString [] rest with
        | error e => rfl
        | ok p =>
          obtain ⟨str, s2⟩ := p
          rfl
      · rw [if_neg hq]
        by_cases hsep : c = '\n' ∨ c = ','
        · rw [if_pos hsep]
          rfl
        · rw [if_neg hsep]
          have hwlt := word_length_lt rest hsp hsep
          simp only [List.length_cons] at hwlt
          by_cases hbtw : (word (c :: rest)).1 = "BTW"
          · rw [if_pos hbtw]
            apply ih
            have := btwSkip_length_le ((word (c :: rest)).2)
            omega
          · rw [if_neg hbtw]
            by_cases hob : (word (c :: rest)).1 = "OBTW"
            · rw [if_pos hob]
              cases ho : obtwScan (word (c :: rest)).2 with
              | error e => rfl
              | ok s2 =>
                apply ih
                have := obtwScan_ok_length ho
                omega
            · rw [if_neg hob]
              rfl

theorem nextF_progress :
    ∀ (fuel : Nat) (s : List Char) {tok : Token} {s2 : List Char},
      nextF fuel s = some (.ok (some tok, s2)) → s2.length < s.length := by
  intro fuel
  induction fuel with
  | zero => intro s tok s2 h; simp [nextF] at h
  | succ fuel ih =>
    intro s tok s2 h
    rw [nextF] at h
    cases htr : trim s with
    | nil => rw [htr] at h; simp at h
    | cons c rest =>
      rw [htr] at h
      dsimp only at h
      have htl : rest.length + 1 ≤ s.length := by
        have := trim_length_le s
        rw [htr] at this
        simpa using this
      have hsp : is_space c = false := trim_head_not_space htr
      by_cases hq : c = '"'
      · subst hq
        rw [if_pos rfl] at h
        cases hsc : scanString [] rest with
        | error e => rw [hsc] at h; simp at h
        | ok p =>
          obtain ⟨str, s3⟩ := p
          rw [hsc] at h
          simp only [Option.some.injEq, Except.ok.injEq, Prod.mk.injEq] at h
          obtain ⟨-, rfl⟩ := h.2
          have := scanString_length_le hsc
          omega
      · rw [if_neg hq] at h
        by_cases hsep : c = '\n' ∨ c = ','
        · rw [if_pos hsep] at h
          simp only [Option.some.injEq, Except.ok.injEq, Prod.mk.injEq] at h
          obtain ⟨-, rfl⟩ := h.2
          omega
        · rw [if_neg hsep] at h
          have hwlt := word_length_lt rest hsp hsep
          simp only [List.length_cons] at hwlt
          by_cases hbtw : (word (c :: rest)).1 = "BTW"
          · rw [if_pos hbtw] at h
            have h1 := ih _ h
            have h2 := btwSkip_length_le ((word (c :: rest)).2)
            omega
          · rw [if_neg hbtw] at h
            by_cases hob : (word (c :: rest)).1 = "OBTW"
            · rw [if_pos hob] at h
              cases ho : obtwScan (word (c :: rest)).2 with
              | error e => rw [ho] at h; simp at h
              | ok s3 =>
                rw [ho] at h
                have h1 := ih _ h
                have h2 := obtwScan_ok_length ho
                omega
            · rw [if_neg hob] at h
              simp only [Option.some.injEq] at h
              have := classify_ok_length h
              omega

theorem nextF_not_ueof :
    ∀ (fuel : Nat) (s : List Char), nextF fuel s ≠ some (.error .UnexpectedEOF) := by
  intro fuel
  induction fuel with
  | zero => intro s h; simp [nextF] at h
  | succ fuel ih =>
    intro s h
    rw [nextF] at h
    cases htr : trim s with
    | nil => rw [htr] at h; simp at h
    | cons c rest =>
      rw [htr] at h
      dsimp only at h
      by_cases hq : c = '"'
      · subst hq
        rw [if_pos rfl] at h
        cases hsc : scanString [] rest with
        | error e =>
          rw [hsc] at h
          simp only [Option.some.injEq, Except.error.injEq] at h
          rcases scanString_error_kinds hsc with h2 | ⟨ch, h2⟩ <;> rw [h] at h2 <;> simp at h2
        | ok p =>
          obtain ⟨str, s3⟩ := p
          rw [hsc] at h
          simp at h
      · rw [if_neg hq] at h
        by_cases hsep : c = '\n' ∨ c = ','
        · rw [if_pos hsep] at h
          simp at h
        · rw [if_neg hsep] at h
          by_cases hbtw : (word (c :: rest)).1 = "BTW"
          · rw [if_pos hbtw] at h
            exact ih _ h
          · rw [if_neg hbtw] at h
            by_cases hob : (word (c :: rest)).1 = "OBTW"
            · rw [if_pos hob] at h
              cases ho : obtwScan (word (c :: rest)).2 with
              | error e =>
                rw [ho] at h
                simp only [Option.some.injEq, Except.error.injEq] at h
                have h2 := obtwScan_error ho
                rw [h] at h2
                simp at h2
              | ok s3 =>
                rw [ho] at h
                exact ih _ h
            · rw [if_neg hob] at h
              simp only [Option.some.injEq] at h
              exact fallback_not_ueof _ _ _ (classify_error h)

theorem next_eq_nextF (s : List Char) : nextF (s.length + 1) s = some (next s) := by
  have h := nextF_isSome (s.length + 1) s (Nat.lt_succ_self _)
  cases hv : nextF (s.length + 1) s with
  | none => rw [hv] at h; simp at h
  | some r => simp [next, hv]

theorem next_progress {s : List Char} {tok : Token} {s2 : List Char}
    (h : next s = .ok (some tok, s2)) : s2.length < s.length := by
  have he := next_eq_nextF s
  rw [h] at he
  exact nextF_progress _ _ he

theorem next_not_ueof (s : List Char) : next s ≠ .error .UnexpectedEOF := by
  intro h
  have he := next_eq_nextF s
  rw [h] at he
  exact nextF_not_ueof _ _ he

/-! Facts about the driver loop runF and its wrapper run. -/

theorem runF_isSome :
    ∀ (fuel : Nat) (s : List Char), s.length < fuel → (runF fuel s).isSome = true := by
  intro fuel
  induction fuel with
  | zero => intro s hs; omega
  | succ fuel ih =>
    intro s hs
    rw [runF]
    cases hn : next s with
    | error e => rfl
    | ok p =>
      obtain ⟨t, s2⟩ := p
      cases t with
      | none => rfl
      | some tok =>
        dsimp only
        have hp := next_progress hn
        have hs2 := ih s2 (by omega)
        cases hr : runF fuel s2 with
        | none => rw [hr] at hs2; simp at hs2
        | some r =>
          cases r with
          | error e => rfl
          | ok ts => rfl

theorem runF_irrel :
    ∀ (f g : Nat) (s : List Char), s.length < f → s.length < g → runF f s = runF g s := by
  intro f
  induction f with
  | zero => intro g s hf; omega
  | succ f ih =>
    intro g s hf hg
    cases g with
    | zero => omega
    | succ g =>
      rw [runF, runF]
      cases hn : next s with
      | error e => rfl
      | ok p =>
        obtain ⟨t, s2⟩ := p
        cases t with
        | none => rfl
        | some tok =>
          dsimp only
          have hp := next_progress hn
          rw [ih g s2 (by omega) (by omega)]

theorem runF_not_ueof :
    ∀ (fuel : Nat) (s : List Char), runF fuel s ≠ some (.error .UnexpectedEOF) := by
  intro fuel
  induction fuel with
  | zero => intro s h; simp [runF] at h
  | succ fuel ih =>
    intro s h
    rw [runF] at h
    cases hn : next s with
    | error e =>
      rw [hn] at h
      simp only [Option.some.injEq, Except.error.injEq] at h
      exact next_not_ueof s (by rw [hn, h])
    | ok p =>
      obtain ⟨t, s2⟩ := p
      rw [hn] at h
      cases t with
      | none => simp at h
      | some tok =>
        dsimp only at h
        cases hr : runF fuel s2 with
        | none => rw [hr] at h; simp at h
        | some r =>
          rw [hr] at h
          cases r with
          | error e2 =>
            simp only [Option.some.injEq, Except.error.injEq] at h
            exact ih s2 (by rw [hr, h])
          | ok ts => simp at h

theorem run_eq_runF (s : List Char) : runF (s.length + 1) s = some (run s) := by
  have h := runF_isSome (s.length + 1) s (Nat.lt_succ_self _)
  cases hv : runF (s.length + 1) s with
  | none => rw [hv] at h; simp at h
  | some r => simp [run, hv]

theorem run_error_of_next {s : List Char} {e : Error} (h : next s = .error e) :
    run s = .error e := by
  have he := run_eq_runF s
  rw [runF] at he
  simp only [h, Option.some.injEq] at he
  exact he.symm

theorem run_nil_of_next {s t : List Char} (h : next s = .ok (none, t)) :
    run s = .ok [] := by
  have he := run_eq_runF s
  rw [runF] at he
  simp only [h, Option.some.injEq] at he
  exact he.symm

theorem run_cons_of_next {s s2 : List Char} {tok : Token}
    (h : next s = .ok (some tok, s2)) :
    run s = (run s2).map (fun ts => tok :: ts) := by
  have he := run_eq_runF s
  rw [runF] at he
  simp only [h] at he
  have hp := next_progress h
  rw [runF_irrel s.length (s2.length + 1) s2 (by omega) (by omega), run_eq_runF s2] at he
  cases hr : run s2 with
  | error e =>
    rw [hr] at he
    simp only [Option.some.injEq] at he
    rw [← he]
    rfl
  | ok ts =>
    rw [hr] at he
    simp only [Option.some.injEq] at he
    rw [← he]
    rfl

theorem run_not_ueof (s : List Char) : run s ≠ .error .UnexpectedEOF := by
  intro h
  have he := run_eq_runF s
  rw [h] at he
  exact runF_not_ueof _ _ he

/-! Step lemmas for the block-comment scan, at the fuel-free level. -/

theorem obtwScanF_trim_congr {s1 s2 : List Char} (h : trim s1 = trim s2) (fuel : Nat) :
    obtwScanF (fuel + 1) s1 = obtwScanF (fuel + 1) s2 := by
  rw [obtwScanF, obtwScanF, h]

theorem obtwScan_cons_of_ne (a : Char) (l : List Char) (ha : a ≠ 'T') :
    obtwScan (a :: l) = obtwScan l := by
  have key : obtwScanF ((a :: l).length + 1) (a :: l) = some (obtwScan l) := by
    by_cases hsp : is_space a = true
    · have hc : trim (a :: l) = trim l := trim_cons_of_space hsp l
      calc obtwScanF ((a :: l).length + 1) (a :: l)
          = obtwScanF (l.length + 1 + 1) (a :: l) := rfl
        _ = obtwScanF (l.length + 1 + 1) l := obtwScanF_trim_congr hc _
        _ = obtwScanF (l.length + 1) l := obtwScanF_irrel _ _ _ (by omega) (by omega)
        _ = some (obtwScan l) := obtwScan_eq_obtwScanF l
    · have hc : trim (a :: l) = a :: l :=
        trim_cons_of_not_space (by simpa using hsp) l
      rw [obtwScanF, hc]
      dsimp only
      rw [if_neg ha]
      exact obtwScan_eq_obtwScanF l
  have h2 := obtwScan_eq_obtwScanF (a :: l)
  rw [key] at h2
  simp only [Option.some.injEq] at h2
  exact h2.symm

theorem obtwScan_no_T : ∀ (s : List Char), (∀ c ∈ s, c ≠ 'T') →
    obtwScan s = .error .UnclosedComment := by
  intro s
  induction s with
  | nil => intro _; rfl
  | cons a t ih =>
    intro h
    rw [obtwScan_cons_of_ne a t (h a (List.mem_cons_self a t))]
    exact ih (fun c hc => h c (List.mem_cons_of_mem a hc))

theorem obtwScan_finds_TLDR :
    ∀ (pre tail : List Char), (∀ c ∈ pre, c ≠ 'T') →
      obtwScan (pre ++ ('T' :: 'L' :: 'D' :: 'R' :: '\n' :: tail)) = .ok ('\n' :: tail) := by
  intro pre
  induction pre with
  | nil =>
    intro tail _
    rfl
  | cons a t ih =>
    intro tail h
    rw [List.cons_append,
      obtwScan_cons_of_ne a _ (h a (List.mem_cons_self a t))]
    exact ih tail (fun c hc => h c (List.mem_cons_of_mem a hc))

theorem obtwScan_mismatch_step {s rest : List Char}
    (htr : trim s = 'T' :: rest) (hw : (word (trim s)).1 ≠ "TLDR") :
    obtwScan s = obtwScan (((word (trim s)).2).drop 1) := by
  rw [htr] at hw
  have hsp : is_space 'T' = false := trim_head_not_space htr
  have hwlt := word_length_lt rest hsp (by decide)
  simp only [List.length_cons] at hwlt
  have htl : rest.length + 1 ≤ s.length := by
    have := trim_length_le s
    rw [htr] at this
    simpa using this
  have harg : (((word ('T' :: rest)).2).drop 1).length < s.length := by
    have := List.length_drop 1 ((word ('T' :: rest)).2)
    omega
  have key : obtwScanF (s.length + 1) s =
      some (obtwScan (((word ('T' :: rest)).2).drop 1)) := by
    rw [obtwScanF, htr]
    dsimp only
    rw [if_pos rfl, if_neg hw]
    calc obtwScanF s.length (((word ('T' :: rest)).2).drop 1)
        = obtwScanF ((((word ('T' :: rest)).2).drop 1).length + 1)
            (((word ('T' :: rest)).2).drop 1) :=
          obtwScanF_irrel _ _ _ harg (Nat.lt_succ_self _)
      _ = some (obtwScan (((word ('T' :: rest)).2).drop 1)) :=
          obtwScan_eq_obtwScanF _
  have h2 := obtwScan_eq_obtwScanF s
  rw [key] at h2
  simp only [Option.some.injEq] at h2
  rw [htr]
  exact h2.symm

/-! Behavior of the string-literal scanner on literals without colon or
quote characters: end of input without a closing quote silently succeeds,
and end of input right after a colon is the unclosed-string error. -/

theorem scanString_no_special :
    ∀ (s acc : List Char), (∀ c ∈ s, c ≠ ':' ∧ c ≠ '"') →
      scanString acc s = .ok (⟨acc.reverse ++ s⟩, []) := by
  intro s
  induction s with
  | nil =>
    intro acc _
    rw [scanString_nil]
    simp
  | cons c rest ih =>
    intro acc h
    obtain ⟨hc, hq⟩ := h c (List.mem_cons_self c rest)
    rw [scanString_other hc hq,
      ih (c :: acc) (fun d hd => h d (List.mem_cons_of_mem c hd))]
    simp

theorem scanString_ends_colon :
    ∀ (s acc : List Char), (∀ c ∈ s, c ≠ ':' ∧ c ≠ '"') →
      scanString acc (s ++ [':']) = .error .UnclosedString := by
  intro s
  induction s with
  | nil =>
    intro acc _
    rw [List.nil_append, scanString_colon_eof]
  | cons c rest ih =>
    intro acc h
    obtain ⟨hc, hq⟩ := h c (List.mem_cons_self c rest)
    rw [List.cons_append, scanString_other hc hq]
    exact ih (c :: acc) (fun d hd => h d (List.mem_cons_of_mem c hd))

/-! Claim theorems. -/

/-- C1 counterexample: a string literal that is opened and never closed,
with end of input not in the middle of a colon escape, tokenizes
successfully to the Yarn scanned so far instead of raising UnclosedString,
refuting the claim that every such input raises UnclosedString. -/
theorem c1_counterexample : tokenize "\"abc" = .ok [.Value (.Yarn "abc")] := rfl

/-- C1 amended: during string-literal scanning, end of input immediately
after a colon (mid-escape) raises UnclosedString, while end of input before
the closing quote but not mid-escape silently yields the Yarn of the text
scanned so far. -/
theorem c1_unclosed_string_amended :
    (∀ body : List Char, (∀ c ∈ body, c ≠ ':' ∧ c ≠ '"') →
      next ('"' :: body) = .ok (some (.Value (.Yarn ⟨body⟩)), [])) ∧
    (∀ body : List Char, (∀ c ∈ body, c ≠ ':' ∧ c ≠ '"') →
      next ('"' :: (body ++ [':'])) = .error .UnclosedString) := by
  constructor
  · intro body hb
    have he := next_eq_nextF ('"' :: body)
    rw [nextF, trim_cons_of_not_space (by decide) body] at he
    dsimp only at he
    rw [if_pos rfl, scanString_no_special body [] hb] at he
    simp only [List.reverse_nil, List.nil_append, Option.some.injEq] at he
    exact he.symm
  · intro body hb
    have he := next_eq_nextF ('"' :: (body ++ [':']))
    rw [nextF, trim_cons_of_not_space (by decide) (body ++ [':'])] at he
    dsimp only at he
    rw [if_pos rfl, scanString_ends_colon body [] hb] at he
    simp only [Option.some.injEq] at he
    exact he.symm

/-- C1 witness: the amended claim at a one-character literal body. -/
theorem c1_witness :
    next ['"', 'a'] = .ok (some (.Value (.Yarn "a")), []) ∧
    next ['"', 'a', ':'] = .error .UnclosedString := by
  constructor
  · exact c1_unclosed_string_amended.1 ['a'] (by decide)
  · exact c1_unclosed_string_amended.2 ['a'] (by decide)

/-- C2 counterexample: cast_troof maps Numbr 0 to true, while the claim
says the numeric zero maps to false. -/
theorem c2_counterexample : Value.cast_troof (Value.Numbr 0) = true := rfl

/-- C2 amended: the to-boolean coercion maps Noob to false, Numbr and
Numbar to true exactly on the numeric zero (false otherwise), Troof to
itself, and Yarn to true exactly on the empty string. -/
theorem c2_cast_troof_amended :
    Value.cast_troof Value.Noob = false ∧
    (∀ n : Int, Value.cast_troof (Value.Numbr n) = true ↔ n = 0) ∧
    (∀ x : Rat, Value.cast_troof (Value.Numbar x) = true ↔ x = 0) ∧
    (∀ b : Bool, Value.cast_troof (Value.Troof b) = b) ∧
    (∀ s : String, Value.cast_troof (Value.Yarn s) = true ↔ s = "") := by
  refine ⟨rfl, fun n => ?_, fun x => ?_, fun b => rfl, fun s => ?_⟩
  · simp [Value.cast_troof]
  · simp [Value.cast_troof]
  · simpa [Value.cast_troof] using String.isEmpty_iff s

/-- C3 counterexample: a TLDR that is not the first significant word of any
line still terminates the block comment (matching the sum_of test of the
repository), refuting the claim that such input reaches end of input inside
the comment and raises UnclosedComment. -/
theorem c3_counterexample : tokenize "OBTW hi TLDR 2" = .ok [.Value (.Numbr 2)] := rfl

/-- C3 amended: the OBTW scan terminates exactly when it reaches (after
space trimming) a character T from which the next word reads exactly TLDR,
wherever on a line that word sits; if end of input comes first the error is
UnclosedComment, and UnclosedComment is the only error the scan produces. -/
theorem c3_obtw_terminator_amended :
    (∀ s : List Char, (∀ c ∈ s, c ≠ 'T') → obtwScan s = .error .UnclosedComment) ∧
    (∀ pre tail : List Char, (∀ c ∈ pre, c ≠ 'T') →
      obtwScan (pre ++ ('T' :: 'L' :: 'D' :: 'R' :: '\n' :: tail)) = .ok ('\n' :: tail)) ∧
    (∀ (s : List Char) (e : Error), obtwScan s = .error e → e = .UnclosedComment) ∧
    tokenize "OBTW x TLDR 3" = .ok [.Value (.Numbr 3)] :=
  ⟨obtwScan_no_T, obtwScan_finds_TLDR, fun _ _ h => obtwScan_error h, rfl⟩

/-- C3 witness: the amended claim at concrete comment bodies, one with no
terminator and one whose TLDR sits mid-line. -/
theorem c3_witness :
    obtwScan ['h', 'i'] = .error .UnclosedComment ∧
    obtwScan ['x', ' ', 'T', 'L', 'D', 'R', '\n', 'z'] = .ok ['\n', 'z'] := by
  constructor
  · exact c3_obtw_terminator_amended.1 ['h', 'i'] (by decide)
  · exact c3_obtw_terminator_amended.2.1 ['x', ' '] ['z'] (by decide)

/-- C4: in the OBTW scan, when the word read from a peeked T is not TLDR,
the scanner consumes that entire word (including the whitespace the word
reader trims) and then one additional character beyond it, so one character
of the following text is skipped on every failed TLDR check. -/
theorem c4_obtw_mismatch_extra_skip :
    ∀ (s rest : List Char), trim s = 'T' :: rest → (word (trim s)).1 ≠ "TLDR" →
      obtwScan s = obtwScan (((word (trim s)).2).drop 1) :=
  fun _ _ htr hw => obtwScan_mismatch_step htr hw

/-- C4 witness: after the mismatched word Tx of the comment body Tx AB, the
word reader leaves AB and the extra consumed character is A, so the scan
continues from B alone. -/
theorem c4_witness :
    obtwScan ['T', 'x', ' ', 'A', 'B'] = obtwScan ['B'] :=
  c4_obtw_mismatch_extra_skip ['T', 'x', ' ', 'A', 'B'] ['x', ' ', 'A', 'B'] rfl (by decide)

/-- C5: a failed compound-keyword lookahead leaves the cursor exactly where
it was after the original word (the fork is discarded without observable
effect), and the word falls through to generic classification: SUM not
followed by OF becomes Ident SUM, also when further input follows. -/
theorem c5_compound_fallback :
    (∀ s : List Char, (word s).1 ≠ "OF" →
      classify 'S' "SUM" s = .ok (some (.Ident "SUM"), s)) ∧
    tokenize "SUM" = .ok [.Ident "SUM"] ∧
    tokenize "SUM 2" = .ok [.Ident "SUM", .Value (.Numbr 2)] := by
  refine ⟨fun s hof => ?_, rfl, rfl⟩
  have hbody : classify 'S' "SUM" s =
      (if (word s).1 = "OF" then Except.ok (some (opOf "SUM"), (word s).2)
       else if (word s).1 = "SAEM" ∧ ("SUM" : String) = "BOTH" then
         Except.ok (some Token.BothSaem, (word s).2)
       else fallback 'S' "SUM" s) := rfl
  rw [hbody, if_neg hof, if_neg (fun hand => absurd hand.2 (by decide))]
  rfl

/-- C5 witness: the fallback at a cursor holding the single word 2. -/
theorem c5_witness :
    classify 'S' "SUM" ['2'] = .ok (some (.Ident "SUM"), ['2']) :=
  c5_compound_fallback.1 ['2'] (by decide)

/-- C6: tokenize terminates on every input (the driver fuel of one more
than the input length is always enough), propagates the first error of next
unchanged with no tokens, prepends each produced token to the tokens of the
rest of the input in order, and returns the finished list at end of
input. -/
theorem c6_tokenize_driver :
    (∀ s : List Char, runF (s.length + 1) s = some (run s)) ∧
    (∀ input : String, tokenize input = run input.toList) ∧
    (∀ (s : List Char) (e : Error), next s = .error e → run s = .error e) ∧
    (∀ (s : List Char) (tok : Token) (s2 : List Char), next s = .ok (some tok, s2) →
      run s = (run s2).map (fun ts => tok :: ts)) ∧
    (∀ (s t : List Char), next s = .ok (none, t) → run s = .ok []) :=
  ⟨run_eq_runF, fun _ => rfl, fun _ _ h => run_error_of_next h,
    fun _ _ _ h => run_cons_of_next h, fun _ _ h => run_nil_of_next h⟩

/-- C6 witness: the driver equations at concrete inputs covering the error,
token and end-of-input cases. -/
theorem c6_witness :
    run ['-'] = .error .UnknownToken ∧
    run ['2', ' ', '3'] = (run ['3']).map (fun ts => Token.Value (Value.Numbr 2) :: ts) ∧
    run [] = .ok [] := by
  refine ⟨c6_tokenize_driver.2.2.1 ['-'] .UnknownToken ?_,
    c6_tokenize_driver.2.2.2.1 ['2', ' ', '3'] (.Value (.Numbr 2)) ['3'] ?_,
    c6_tokenize_driver.2.2.2.2 [] [] ?_⟩ <;> rfl

/-- C7: no scanning path produces UnexpectedEOF; neither next nor tokenize
ever returns it, on any input. -/
theorem c7_unexpected_eof_unreachable :
    ∀ (s : List Char) (input : String),
      (next s = .error .UnexpectedEOF) = False ∧
      (tokenize input = .error .UnexpectedEOF) = False :=
  fun s input => ⟨eq_false (next_not_ueof s), eq_false (run_not_ueof input.toList)⟩

/-- C8: inside a string literal each two-character escape decodes per the
binding table (colon-parenthesis to U+000A, colon-greater to U+0009,
colon-o to U+0007, colon-quote to U+0022, colon-colon to U+003A), any other
character after a colon is UnknownEscape with that character, and a decoded
literal reaches the token stream. -/
theorem c8_escape_table :
    (∀ acc rest : List Char, scanString acc (':' :: ')' :: rest) = scanString ('\n' :: acc) rest) ∧
    (∀ acc rest : List Char, scanString acc (':' :: '>' :: rest) = scanString ('\t' :: acc) rest) ∧
    (∀ acc rest : List Char,
      scanString acc (':' :: 'o' :: rest) = scanString (Char.ofNat 7 :: acc) rest) ∧
    (∀ acc rest : List Char, scanString acc (':' :: '"' :: rest) = scanString ('"' :: acc) rest) ∧
    (∀ acc rest : List Char, scanString acc (':' :: ':' :: rest) = scanString (':' :: acc) rest) ∧
    (∀ (c : Char) (acc rest : List Char), c ≠ ')' → c ≠ '>' → c ≠ 'o' → c ≠ '"' → c ≠ ':' →
      scanString acc (':' :: c :: rest) = .error (.UnknownEscape c)) ∧
    tokenize "\"x:)\"" = .ok [.Value (.Yarn "x\n")] := by
  refine ⟨fun acc rest => scanString_escape (show escape ')' = some '\n' from rfl) acc rest,
    fun acc rest => scanString_escape (show escape '>' = some '\t' from rfl) acc rest,
    fun acc rest => scanString_escape (show escape 'o' = some (Char.ofNat 7) from rfl) acc rest,
    fun acc rest => scanString_escape (show escape '"' = some '"' from rfl) acc rest,
    fun acc rest => scanString_escape (show escape ':' = some ':' from rfl) acc rest,
    fun c acc rest h1 h2 h3 h4 h5 =>
      scanString_bad_escape (by simp [escape, h1, h2, h3, h4, h5]) acc rest,
    rfl⟩

/-- C8 witness: the unknown-escape case at the character q. -/
theorem c8_witness :
    scanString [] [':', 'q'] = .error (.UnknownEscape 'q') :=
  c8_escape_table.2.2.2.2.2.1 'q' [] [] (by decide) (by decide) (by decide) (by decide)
    (by decide)

/-- C9: the numeric coercions are total and never raise. Noob yields none;
a Yarn yields the number parsed from its text, silently defaulting to zero
when the text does not parse; Numbr and Numbar convert by widening and by
saturating truncation toward zero; Troof false and true yield zero and
one. -/
theorem c9_cast_numeric_total :
    (Value.cast_numbr Value.Noob = none ∧ Value.cast_numbar Value.Noob = none) ∧
    (∀ v : Value, v ≠ Value.Noob →
      (Value.cast_numbr v).isSome = true ∧ (Value.cast_numbar v).isSome = true) ∧
    (∀ (s : String) (n : Int), parseI64 s = some n →
      Value.cast_numbr (Value.Yarn s) = some n) ∧
    (∀ s : String, parseI64 s = none → Value.cast_numbr (Value.Yarn s) = some 0) ∧
    (∀ (s : String) (x : Rat), parseF64 s = some x →
      Value.cast_numbar (Value.Yarn s) = some x) ∧
    (∀ s : String, parseF64 s = none → Value.cast_numbar (Value.Yarn s) = some 0) ∧
    (∀ n : Int, Value.cast_numbr (Value.Numbr n) = some n ∧
      Value.cast_numbar (Value.Numbr n) = some (n : Rat)) ∧
    (∀ x : Rat, Value.cast_numbr (Value.Numbar x) = some (f64AsI64 x) ∧
      Value.cast_numbar (Value.Numbar x) = some x) ∧
    (Value.cast_numbr (Value.Troof false) = some 0 ∧
      Value.cast_numbr (Value.Troof true) = some 1 ∧
      Value.cast_numbar (Value.Troof false) = some 0 ∧
      Value.cast_numbar (Value.Troof true) = some 1) := by
  refine ⟨⟨rfl, rfl⟩, fun v hv => ?_, fun s n h => ?_, fun s h => ?_, fun s x h => ?_,
    fun s h => ?_, fun n => ⟨rfl, rfl⟩, fun x => ⟨rfl, rfl⟩, rfl, rfl, rfl, rfl⟩
  · cases v with
    | Noob => exact absurd rfl hv
    | Yarn s => exact ⟨rfl, rfl⟩
    | Numbr n => exact ⟨rfl, rfl⟩
    | Numbar x => exact ⟨rfl, rfl⟩
    | Troof b => exact ⟨rfl, rfl⟩
  · simp [Value.cast_numbr, h]
  · simp [Value.cast_numbr, h]
  · simp [Value.cast_numbar, h]
  · simp [Value.cast_numbar, h]

/-- C9 witness: the parse-failure defaults at a non-numeric Yarn, the parse
success at a numeric Yarn, and totality at a Numbr. -/
theorem c9_witness :
    Value.cast_numbr (Value.Yarn "abc") = some 0 ∧
    Value.cast_numbar (Value.Yarn "abc") = some 0 ∧
    Value.cast_numbr (Value.Yarn "42") = some 42 ∧
    (Value.cast_numbr (Value.Numbr 7)).isSome = true := by
  refine ⟨c9_cast_numeric_total.2.2.2.1 "abc" ?_,
    c9_cast_numeric_total.2.2.2.2.2.1 "abc" ?_,
    c9_cast_numeric_total.2.2.1 "42" 42 ?_,
    (c9_cast_numeric_total.2.1 (Value.Numbr 7) ?_).1⟩ <;> decide

/-- C10: the single words ITZ and R map directly to the tokens Itz and R
with no lookahead and no cursor movement beyond the word itself, and the
assignment line of the repository test tokenizes accordingly. -/
theorem c10_itz_r_direct :
    (∀ (c : Char) (s : List Char), classify c "ITZ" s = .ok (some .Itz, s)) ∧
    (∀ (c : Char) (s : List Char), classify c "R" s = .ok (some .R, s)) ∧
    tokenize "I HAS A VAR ITZ 12" = .ok [.IHasA, .Ident "VAR", .Itz, .Value (.Numbr 12)] :=
  ⟨fun _ _ => rfl, fun _ _ => rfl, rfl⟩

end LCI
